import Mathlib

/-!
Verification of the browser-storage-lru-cleaner eviction engine.

A shallow embedding of the core of the `browser-storage-lru-cleaner`
repository: the access ledger, its compressed persisted encoding
(`Utils.compressAccessRecords` / `Utils.decompressAccessRecords`), the layered
eviction-selection algorithm (`LRUStrategy.getKeysToCleanup` /
`getLayeredCleanupKeys` / `sortKeysByLRU`), the time-based expiry sweep
(`LRUStrategy.performTimeBasedCleanup`), insertion admission control
(`StorageCleaner.shouldRejectInsertion`), the health/repair subsystem
(`checkAccessRecordsHealth` / `autoRepairAccessRecords` /
`rebuildAccessRecords`), and the localStorage adapter's quota handling
(`LocalStorageAdapter.setItem`).

Modelling conventions:
* JavaScript numbers are modelled as exact rationals (`ℚ`).  All arithmetic
  appearing in the claims (sums, differences, products, comparisons) is exact
  on the values involved; the float literal `0.8` is modelled as the rational
  `4/5` (written `mkRat 4 5`) and `0.5` as `mkRat 1 2`.
* A JavaScript plain object used as a map is modelled as an insertion-ordered
  association list with unique keys (`List (String × α)`); property
  assignment is `objSet` (overwrite in place, else append), property lookup
  is `List.lookup` (keys are unique, so first match = the entry).
* `Array.prototype.sort` (guaranteed stable since ES2019) with a numeric
  comparator `cmp` is modelled by the stable insertion sort `jsSortBy le`
  with `le a b := cmp a b ≤ 0`.
* Strings are compared and measured on their character data; byte sizes use
  `String.utf8ByteSize` (the size of `new Blob([s])`).
-/

/-- JS `Math.max` on two numbers (NaN behaviour not modelled; all inputs in
the claims are real numbers). -/
def mathMax (a b : ℚ) : ℚ := if a ≤ b then b else a

/-- JS `Math.max(...xs)` as used on the (nonempty at every relevant call
site) list of kept `lastAccess` values; the empty case returns a junk value
(JS would give `-Infinity`, which ℚ cannot represent; no claim depends on
it). -/
def jsMaxList (l : List ℚ) : ℚ :=
  match l with
  | [] => 0
  | x :: xs => xs.foldl mathMax x

/-- Stable insertion of `x` into `l`: `x` goes before the first element `y`
that is not strictly below it (`le y x && !(le x y)` fails).  Folding this
from the right gives a stable sort. -/
def stableInsert (le : α → α → Bool) (x : α) : List α → List α
  | [] => [x]
  | y :: ys => if le y x && !(le x y) then y :: stableInsert le x ys else x :: y :: ys

/-- Model of JS `Array.prototype.sort` with a consistent comparator: the
unique stable sort with respect to `le a b = (cmp a b ≤ 0)`. -/
def jsSortBy (le : α → α → Bool) (l : List α) : List α :=
  l.foldr (stableInsert le) []

/-- JS object property assignment `m[key] = v`: overwrite in place if the
key is present, else append (insertion order preserved). -/
def objSet (m : List (String × α)) (key : String) (v : α) : List (String × α) :=
  if (m.lookup key).isSome then
    m.map (fun p => if p.1 = key then (key, v) else p)
  else
    m ++ [(key, v)]

/-- Source `Utils.isSystemKey`: `key.startsWith('__') && key.endsWith('__')`
(stated on character data so that it evaluates by `decide`). -/
def isSystemKey (key : String) : Bool :=
  "__".data.isPrefixOf key.data && "__".data.isSuffixOf key.data

/-- Modelled from the spec: `Utils.isUnimportantKey(key, patterns)` is called
by the source (`storage-cleaner.ts`, `LRUStrategy`) but its definition is not
under `src/`; per the spec (§3) a key is *unimportant* iff it matches any
configured substring/prefix pattern.  A substring match subsumes a prefix
match, so the check is: some pattern occurs inside the key. -/
def isUnimportantKey (key : String) (patterns : List String) : Bool :=
  patterns.any (fun p => decide (p.data <:+: key.data))

/-- The character table of `Utils.encodeKeyIndex`. -/
def base62Chars : List Char :=
  "abcdefghijklmnopqrstuvwxyzABCDEFGHIJKLMNOPQRSTUVWXYZ0123456789".data

/-- Digit expansion (most significant first) of the `do { ... } while` loop in
`Utils.encodeKeyIndex`, with structural fuel so that it computes by
`decide`/`rfl` (the fuel `n+1` always suffices, see `encDigitsAux_eq`). -/
def encDigitsAux : Nat → Nat → List Nat
  | 0, _ => []
  | fuel + 1, n => if n < 62 then [n] else encDigitsAux fuel (n / 62) ++ [n % 62]

/-- Base-62 digits of `n`, most significant first (`0` encodes as `[0]`). -/
def encDigits (n : Nat) : List Nat := encDigitsAux (n + 1) n

/-- Source `Utils.encodeKeyIndex`: base-62 short identifier of a sequential index. -/
def encodeKeyIndex (n : Nat) : String :=
  ⟨(encDigits n).map (fun d => base62Chars.getD d 'a')⟩

/-- Source `IAccessRecord`: per-key access metadata. -/
structure AccessRecord where
  lastAccess : ℚ
  accessCount : ℚ
  size : ℚ
deriving DecidableEq, Repr

/-- The in-memory ledger: a JS `Record<string, IAccessRecord>`, i.e. an
insertion-ordered association list with unique keys. -/
abbrev Ledger := List (String × AccessRecord)

/-- The weight used by the codec to rank records:
`lastAccess + accessCount * 60000`. -/
def weight (r : AccessRecord) : ℚ := r.lastAccess + r.accessCount * 60000

/-- The structured content of the version-2 snapshot document
`{ v: 2, t, k, d }` produced by `Utils.compressAccessRecords`. -/
structure SnapshotDoc where
  t : ℚ
  k : List (String × String)
  d : List (String × (ℚ × ℚ × ℚ))
deriving Repr

/-- The key map `k` (shortId → original key) built by assigning sequential
shortIds, starting at index `i`, to the kept entries in order. -/
def kpart : Nat → Ledger → List (String × String)
  | _, [] => []
  | i, (key, _) :: rest => (encodeKeyIndex i, key) :: kpart (i + 1) rest

/-- The data map `d` (shortId → `[timeBase - lastAccess, accessCount, size]`)
built in the same order as `kpart`. -/
def dpart (t : ℚ) : Nat → Ledger → List (String × (ℚ × ℚ × ℚ))
  | _, [] => []
  | i, (_, r) :: rest =>
    (encodeKeyIndex i, (t - r.lastAccess, r.accessCount, r.size)) :: dpart t (i + 1) rest

/-- Source `Utils.compressAccessRecords` (v2 codec): sort entries by descending
weight (stable JS sort with comparator `weightB - weightA`), keep the first
`maxEntries`, take the newest `lastAccess` as the time base, and emit the
key map and the delta-compressed data map.  For unique-key input the source's
`keyMap[key]` lookup in the second loop returns exactly the shortId assigned
positionally in the first loop, which is how `kpart`/`dpart` build the maps. -/
def compressAccessRecords (records : Ledger) (maxEntries : Nat) : SnapshotDoc :=
  let sortedEntries :=
    (jsSortBy (fun a b => decide (weight b.2 - weight a.2 ≤ 0)) records).take maxEntries
  let timeBase := jsMaxList (sortedEntries.map (fun e => e.2.lastAccess))
  { t := timeBase, k := kpart 0 sortedEntries, d := dpart timeBase 0 sortedEntries }

/-- JSON values, with numbers as exact rationals and `jnan` for `NaN`
(produced by arithmetic on non-numbers). -/
inductive JValue where
  | jnum (q : ℚ)
  | jnan
  | jstr (s : String)
  | jbool (b : Bool)
  | jnull
  | jarr (elems : List JValue)
  | jobj (fields : List (String × JValue))

/-- JS truthiness of a value (`NaN`, `0`, `''`, `false`, `null`/`undefined`
are falsy). -/
def jTruthy : JValue → Bool
  | JValue.jnum q => decide (q ≠ 0)
  | JValue.jnan => false
  | JValue.jstr s => decide (s ≠ "")
  | JValue.jbool b => b
  | JValue.jnull => false
  | JValue.jarr _ => true
  | JValue.jobj _ => true

/-- JS subtraction as used by the decoder (`timeBase - data[0]`): exact on
numbers, `NaN` otherwise (string-to-number coercion is not modelled; no claim
involves it). -/
def jsSub : JValue → JValue → JValue
  | JValue.jnum a, JValue.jnum b => JValue.jnum (a - b)
  | _, _ => JValue.jnan

/-- The raw decoded record `{lastAccess, accessCount, size}`: the decoder
copies the array fields without checking that they are numbers, so the fields
are arbitrary JSON values. -/
abbrev JRecord := JValue × JValue × JValue

/-- The JSON document `JSON.parse(JSON.stringify(doc))` of a structured
version-2 snapshot. -/
def docToJson (doc : SnapshotDoc) : JValue :=
  JValue.jobj
    [("v", JValue.jnum 2),
     ("t", JValue.jnum doc.t),
     ("k", JValue.jobj (doc.k.map (fun p => (p.1, JValue.jstr p.2)))),
     ("d", JValue.jobj (doc.d.map (fun p =>
        (p.1, JValue.jarr [JValue.jnum p.2.1, JValue.jnum p.2.2.1, JValue.jnum p.2.2.2]))))]

/-- View of a numeric `AccessRecord` as the raw record the decoder emits. -/
def recordToJ (r : AccessRecord) : JRecord :=
  (JValue.jnum r.lastAccess, JValue.jnum r.accessCount, JValue.jnum r.size)

/-- One step of the legacy decoding loop: keep the entry iff its value is an
array of length 3, copying the three fields verbatim (no numeric check). -/
def legacyStep (acc : List (String × JRecord)) (p : String × JValue) :
    List (String × JRecord) :=
  match p.2 with
  | JValue.jarr [a, b, c] => objSet acc p.1 (a, b, c)
  | _ => acc

/-- Source `Utils.decompressLegacyFormat`: keep exactly the entries whose value is
an array of length 3, copying the three fields verbatim (no numeric check). -/
def decompressLegacyFormat (fields : List (String × JValue)) : List (String × JRecord) :=
  fields.foldl legacyStep []

/-- The version-2 decoding loop of `Utils.decompressAccessRecords`: for each
`d` entry, look the shortId up in the key map; keep the entry iff the mapped
key is truthy and the data is an array of length 3; `lastAccess` is
`timeBase - data[0]`.  Non-string values in the key map (which JS would
coerce to property names) are not modelled and are skipped; every document in
the claims has a string-valued key map. -/
def v2Step (t : JValue) (kf : List (String × JValue))
    (acc : List (String × JRecord)) (p : String × JValue) : List (String × JRecord) :=
  match List.lookup p.1 kf with
  | some (JValue.jstr okey) =>
    if okey ≠ "" then
      match p.2 with
      | JValue.jarr [a, b, c] => objSet acc okey (jsSub t a, b, c)
      | _ => acc
    else acc
  | _ => acc

/-- Source v2 decoding loop of `Utils.decompressAccessRecords`, folding
`v2Step` over the `d` entries. -/
def decompressV2 (t : JValue) (kf : List (String × JValue))
    (df : List (String × JValue)) : List (String × JRecord) :=
  df.foldl (v2Step t kf) []

/-- Source `Utils.decompressAccessRecords` on a parsed JSON document.  A missing or
falsy `v` selects the legacy decoder; `v === 2` selects the v2 decoder (with
`{}` returned when `k` or `d` is not an object — in the source the resulting
exception is caught); any other truthy version yields `{}`.  Non-object
documents (on which JS would enumerate e.g. array indices) are outside every
claim and decode to `{}` here. -/
def decompressAccessRecords (j : JValue) : List (String × JRecord) :=
  match j with
  | JValue.jobj fields =>
    match fields.lookup ("v") with
    | none => decompressLegacyFormat fields
    | some v =>
      if jTruthy v = false then decompressLegacyFormat fields
      else
        match v with
        | JValue.jnum q =>
          if q = 2 then
            match fields.lookup ("k"), fields.lookup ("d") with
            | some (JValue.jobj kf), some (JValue.jobj df) =>
              decompressV2 ((fields.lookup ("t")).getD JValue.jnull) kf df
            | _, _ => []
          else []
        | _ => []
  | _ => []

/-- The configuration slice of `LRUStrategy` relevant to the claims. -/
structure LRUConfig where
  maxAccessAge : ℚ
  excludeKeys : List String
  enableTimeBasedCleanup : Bool
  timeCleanupThreshold : ℚ
  unimportantKeys : List String

/-- Comparator of `LRUStrategy.sortKeysByLRU`: untracked keys first, then
ascending `lastAccess`, ties broken by ascending `accessCount`. -/
def lruCmp (records : Ledger) (a b : String) : ℚ :=
  match records.lookup a, records.lookup b with
  | none, none => 0
  | none, some _ => -1
  | some _, none => 1
  | some ra, some rb =>
    if ra.lastAccess - rb.lastAccess ≠ 0 then ra.lastAccess - rb.lastAccess
    else ra.accessCount - rb.accessCount

/-- Source `LRUStrategy.sortKeysByLRU`. -/
def sortKeysByLRU (records : Ledger) (keys : List String) : List String :=
  jsSortBy (fun a b => decide (lruCmp records a b ≤ 0)) keys

/-- Source test `record && record.size > 5 * 1024` — the internal fixed 5 KiB "large"
test (false for untracked keys). -/
def isLargeB (records : Ledger) (key : String) : Bool :=
  match records.lookup key with
  | some r => decide (r.size > 5 * 1024)
  | none => false

/-- Source value `this.accessRecords[k]?.size || 0`, the size used by the tier-1
comparator. -/
def sizeOrZero (records : Ledger) (key : String) : ℚ :=
  match records.lookup key with
  | some r => r.size
  | none => 0

/-- One tier's selection loop in `getLayeredCleanupKeys`: walk the sorted
keys, push each key that has an access record, accumulate its recorded size,
and return early (third component `true`) as soon as the freed space reaches
`need`. -/
def selLoop (records : Ledger) (need : ℚ) :
    List String → List String → ℚ → List String × ℚ × Bool
  | [], acc, freed => (acc, freed, false)
  | key :: rest, acc, freed =>
    match records.lookup key with
    | none => selLoop records need rest acc freed
    | some r =>
      let acc' := acc ++ [key]
      let freed' := freed + r.size
      if need ≤ freed' then (acc', freed', true)
      else selLoop records need rest acc' freed'

/-- Source `LRUStrategy.getLayeredCleanupKeys`: tier 1 = unimportant and large, by
descending size; tier 2 = unimportant, not large, not already selected, by
LRU; tier 3 = important, not already selected, by LRU.  Each tier stops as
soon as the accumulated freed space reaches `spaceToFree`. -/
def getLayeredCleanupKeys (records : Ledger) (patterns : List String)
    (cleanableKeys : List String) (spaceToFree : ℚ) : List String :=
  let tier1 := jsSortBy
    (fun a b => decide (sizeOrZero records b - sizeOrZero records a ≤ 0))
    (cleanableKeys.filter (fun k => isUnimportantKey k patterns && isLargeB records k))
  let s1 := selLoop records spaceToFree tier1 [] 0
  if s1.2.2 then s1.1 else
  let tier2 := sortKeysByLRU records
    (cleanableKeys.filter (fun k =>
      isUnimportantKey k patterns && !(isLargeB records k) && !(s1.1.contains k)))
  let s2 := selLoop records spaceToFree tier2 s1.1 s1.2.1
  if s2.2.2 then s2.1 else
  let tier3 := sortKeysByLRU records
    (cleanableKeys.filter (fun k =>
      !(isUnimportantKey k patterns) && !(s2.1.contains k)))
  (selLoop records spaceToFree tier3 s2.1 s2.2.1).1

/-- Source `LRUStrategy.cleanupExpiredRecords`: drop records older than
`maxAccessAge`. -/
def cleanupExpiredRecords (records : Ledger) (maxAccessAge now : ℚ) : Ledger :=
  records.filter (fun p => !(decide (now - p.2.lastAccess > maxAccessAge)))

/-- Source `LRUStrategy.updateKeySizesSync`: refresh the recorded size of each
tracked cleanable key.  `itemSize k` is the resolved size — the adapter's
synchronous `getItemSize` result, or the estimation fallback the source
substitutes when that is unavailable or throws. -/
def updateKeySizesSync (records : Ledger) (itemSize : String → ℚ)
    (keys : List String) : Ledger :=
  keys.foldl
    (fun recs k =>
      if (recs.lookup k).isSome then
        recs.map (fun p => if p.1 = k then (p.1, { p.2 with size := itemSize k }) else p)
      else recs)
    records

/-- Source `LRUStrategy.getKeysToCleanup` (the advanced, layered version): clean up
expired records, filter out system/excluded keys, compute
`targetSize = max(maxSize * 0.8, currentSize - requiredSpace)`, return `[]`
when nothing needs freeing, otherwise refresh sizes and run the layered
selection. -/
def getKeysToCleanup (records : Ledger) (cfg : LRUConfig) (itemSize : String → ℚ)
    (allKeys : List String) (currentSize maxSize requiredSpace now : ℚ) : List String :=
  let records1 := cleanupExpiredRecords records cfg.maxAccessAge now
  let cleanableKeys := allKeys.filter (fun k =>
    !(isSystemKey k) && !(cfg.excludeKeys.contains k))
  let targetSize := mathMax (maxSize * mkRat 4 5) (currentSize - requiredSpace)
  let spaceToFree := currentSize - targetSize
  if spaceToFree ≤ 0 then [] else
  let records2 := updateKeySizesSync records1 itemSize cleanableKeys
  getLayeredCleanupKeys records2 cfg.unimportantKeys cleanableKeys spaceToFree

/-- The expired-key scan of `LRUStrategy.performTimeBasedCleanup`: a
non-system, non-excluded storage key is expired iff it is untracked or its
record is older than `timeCleanupThreshold` days. -/
def expiredKeysOf (storageKeys : List String) (records : Ledger)
    (cfg : LRUConfig) (now : ℚ) : List String :=
  let thresholdMs := cfg.timeCleanupThreshold * (24 * 60 * 60 * 1000)
  storageKeys.filter (fun k =>
    !(isSystemKey k) && !(cfg.excludeKeys.contains k) &&
    (match records.lookup k with
     | some r => decide (now - r.lastAccess > thresholdMs)
     | none => true))

/-- Source `LRUStrategy.performTimeBasedCleanup` followed by
`cleanupExpiredKeys`: every expired key is removed from the storage medium
and from the ledger; disabled configuration leaves both untouched.  Returns
(remaining storage keys, remaining ledger). -/
def performTimeBasedCleanup (storageKeys : List String) (records : Ledger)
    (cfg : LRUConfig) (now : ℚ) : List String × Ledger :=
  if !cfg.enableTimeBasedCleanup then (storageKeys, records) else
  let expired := expiredKeysOf storageKeys records cfg now
  (storageKeys.filter (fun k => !(expired.contains k)),
   records.filter (fun p => !(expired.contains p.1)))

/-- The health report of `LRUStrategy.checkAccessRecordsHealth`. -/
structure HealthInfo where
  totalKeys : Nat
  trackedKeys : Nat
  missingRecords : Nat
  corruptedRecords : Nat
  isHealthy : Bool
deriving Repr, DecidableEq

/-- Source `LRUStrategy.checkAccessRecordsHealth`: `totalKeys` counts non-system,
non-excluded storage keys; `missingRecords` counts those without a ledger
entry; `corruptedRecords` counts ledger entries failing structural
validation.  In this typed embedding the only representable validation
failures are non-positive `lastAccess`/`accessCount` (the `typeof` checks of
the source cannot fail on a typed ledger). -/
def checkAccessRecordsHealth (storageKeys : List String) (records : Ledger)
    (excludeKeys : List String) : HealthInfo :=
  let allKeys := storageKeys.filter (fun k =>
    !(isSystemKey k) && !(excludeKeys.contains k))
  let missing := (allKeys.filter (fun k => (records.lookup k).isNone)).length
  let corrupted := (records.filter (fun p =>
    decide (p.2.lastAccess ≤ 0) || decide (p.2.accessCount ≤ 0))).length
  { totalKeys := allKeys.length
    trackedKeys := records.length
    missingRecords := missing
    corruptedRecords := corrupted
    isHealthy := missing = 0 && corrupted = 0 }

/-- The repair action chosen by `StorageCleaner.autoRepairAccessRecords`. -/
inductive RepairAction where
  | noRepair
  | initRecords
  | rebuild
deriving Repr, DecidableEq

/-- The decision tree of `StorageCleaner.autoRepairAccessRecords` (the
branches are tested in source order; `0.5` is exact in floats, so
`missingRecords > totalKeys * 0.5` is modelled exactly). -/
def autoRepairAccessRecords (h : HealthInfo) : RepairAction :=
  if h.isHealthy then RepairAction.noRepair
  else if h.missingRecords > 0 && h.corruptedRecords = 0 then RepairAction.initRecords
  else if h.corruptedRecords > 0 ||
      decide ((h.missingRecords : ℚ) > (h.totalKeys : ℚ) * mkRat 1 2) then
    RepairAction.rebuild
  else RepairAction.noRepair

/-- Source `LRUStrategy.rebuildAccessRecords`: one fresh record per non-system,
non-excluded storage key with `lastAccess = now - (rand1 k * 7) * 86400000`
(`Math.random() * 7` days ago) and
`accessCount = Math.floor(rand2 k * 5) + 1`.  The two `Math.random()` draws
per key are parametrised by the functions `rand1`, `rand2`; `itemSize` is
the estimated size. -/
def rebuildAccessRecords (storageKeys : List String) (excludeKeys : List String)
    (itemSize : String → ℚ) (now : ℚ) (rand1 rand2 : String → ℚ) : Ledger :=
  (storageKeys.filter (fun k => !(isSystemKey k) && !(excludeKeys.contains k))).map
    (fun k =>
      (k, { lastAccess := now - rand1 k * 7 * (24 * 60 * 60 * 1000)
            accessCount := ((rand2 k * 5).floor : ℚ) + 1
            size := itemSize k }))

/-- Source `StorageCleaner.updateStats`: the cached usage ratio is
`totalSize / maxStorageSize`. -/
def usageRatioOf (totalSize maxStorageSize : ℚ) : ℚ := totalSize / maxStorageSize

/-- Source `StorageCleaner.shouldRejectInsertion`: reject iff the key is
unimportant and the cached usage ratio exceeds the cleanup threshold. -/
def shouldRejectInsertion (unimportantKeys : List String) (key : String)
    (usageRatio cleanupThreshold : ℚ) : Bool :=
  isUnimportantKey key unimportantKeys && decide (usageRatio > cleanupThreshold)

/-- Byte size of a string (`new Blob([s]).size` = UTF-8 byte length). -/
def strBytes (s : String) : ℚ := (s.utf8ByteSize : ℚ)

/-- Total byte size of a localStorage store (keys + values). -/
def storeSize (store : List (String × String)) : ℚ :=
  (store.map (fun p => strBytes p.1 + strBytes p.2)).sum

/-- The browser's raw `localStorage.setItem` under a byte quota: the write
succeeds unless the store after the write would exceed `quota`, in which
case a quota-exceeded error is thrown and the store is unchanged. -/
def rawSetItem (quota : ℚ) (store : List (String × String)) (key v : String) :
    Except Unit (List (String × String)) :=
  let store' := objSet store key v
  if storeSize store' > quota then Except.error () else Except.ok store'

/-- Source `LocalStorageAdapter.setItem`: try the raw write; on a quota-exceeded
error (the only error this storage model produces, and one
`isQuotaExceededError` recognises), clear the entire store and retry once,
propagating the retry's error if it also fails. -/
def adapterSetItem (quota : ℚ) (store : List (String × String)) (key v : String) :
    Except Unit (List (String × String)) :=
  match rawSetItem quota store key v with
  | Except.ok s => Except.ok s
  | Except.error _ =>
    match rawSetItem quota [] key v with
    | Except.ok s => Except.ok s
    | Except.error e => Except.error e

/-- Spec-side tier-2/3 ordering, following the spec's words: "ascending
`lastAccess`; ties broken by ascending `accessCount`; untracked keys sort
before all tracked keys". -/
def specLruLe (records : Ledger) (a b : String) : Bool :=
  match records.lookup a, records.lookup b with
  | none, _ => true
  | some _, none => false
  | some ra, some rb =>
    decide (ra.lastAccess < rb.lastAccess ∨
      (ra.lastAccess = rb.lastAccess ∧ ra.accessCount ≤ rb.accessCount))

/-- Spec-side tier-1 ordering, following the spec's words: "ordered by
descending size". -/
def specSizeDescLe (records : Ledger) (a b : String) : Bool :=
  decide (sizeOrZero records b ≤ sizeOrZero records a)

/-- Spec-side greedy selection: take keys in order, accumulating each
tracked key's recorded size, and stop as soon as the shortfall is covered.
Untracked keys contribute nothing and are skipped by the selection loop of
the source (see the C3 analysis). -/
def greedySpec (records : Ledger) : ℚ → List String → List String
  | _, [] => []
  | need, k :: rest =>
    if need ≤ 0 then [] else
    match records.lookup k with
    | none => greedySpec records need rest
    | some r => k :: greedySpec records (need - r.size) rest

/-- Spec-side layered selection (§4.3 step 5 of the spec): greedy selection
over the concatenation of the three sorted tiers. -/
def specTieredSelection (records : Ledger) (patterns : List String)
    (cleanableKeys : List String) (spaceToFree : ℚ) : List String :=
  let t1 := jsSortBy (specSizeDescLe records)
    (cleanableKeys.filter (fun k => isUnimportantKey k patterns && isLargeB records k))
  let t2 := jsSortBy (specLruLe records)
    (cleanableKeys.filter (fun k => isUnimportantKey k patterns && !(isLargeB records k)))
  let t3 := jsSortBy (specLruLe records)
    (cleanableKeys.filter (fun k => !(isUnimportantKey k patterns)))
  greedySpec records spaceToFree (t1 ++ t2 ++ t3)

/-- Total recorded size of a list of keys (`sizeOrZero` summed). -/
def sumSizes (records : Ledger) (l : List String) : ℚ :=
  (l.map (sizeOrZero records)).sum

/-! Helper lemmas about association lists, JS object assignment and the
stable sort. -/

theorem lookup_mem {α : Type} {l : List (String × α)} {k : String} {v : α}
    (h : List.lookup k l = some v) : (k, v) ∈ l := by
  induction l with
  | nil => simp [List.lookup_nil] at h
  | cons p rest ih =>
    obtain ⟨a, b⟩ := p
    rw [List.lookup_cons] at h
    by_cases hk : k = a
    · subst hk
      simp at h
      subst h
      exact List.mem_cons_self _ _
    · have : (k == a) = false := by simp [hk]
      rw [this] at h
      exact List.mem_cons_of_mem _ (ih h)

theorem lookup_eq_none_iff {α : Type} {l : List (String × α)} {k : String} :
    List.lookup k l = none ↔ k ∉ l.map Prod.fst := by
  induction l with
  | nil => simp [List.lookup_nil]
  | cons p rest ih =>
    obtain ⟨a, b⟩ := p
    rw [List.lookup_cons]
    by_cases hk : k = a
    · subst hk
      simp
    · have : (k == a) = false := by simp [hk]
      rw [this]
      simp [hk, ih]

theorem mem_lookup {α : Type} {l : List (String × α)} {k : String} {v : α}
    (nd : (l.map Prod.fst).Nodup) (h : (k, v) ∈ l) : List.lookup k l = some v := by
  induction l with
  | nil => simp at h
  | cons p rest ih =>
    obtain ⟨a, b⟩ := p
    simp only [List.map_cons, List.nodup_cons] at nd
    rcases List.mem_cons.mp h with h1 | h1
    · obtain ⟨h1a, h1b⟩ := Prod.mk.injEq .. ▸ h1
      subst h1a; subst h1b
      simp [List.lookup_cons]
    · have hka : k ≠ a := by
        rintro rfl
        exact nd.1 (List.mem_map.mpr ⟨(k, v), h1, rfl⟩)
      have : (k == a) = false := by simp [hka]
      rw [List.lookup_cons, this]
      exact ih nd.2 h1

theorem lookup_of_perm {α : Type} {l l' : List (String × α)}
    (nd : (l.map Prod.fst).Nodup) (hp : l.Perm l') (k : String) :
    List.lookup k l = List.lookup k l' := by
  have nd' : (l'.map Prod.fst).Nodup := ((hp.map Prod.fst).nodup_iff).mp nd
  cases hv : List.lookup k l with
  | some v => exact (mem_lookup nd' (hp.mem_iff.mp (lookup_mem hv))).symm
  | none =>
    cases hv' : List.lookup k l' with
    | none => rfl
    | some v' =>
      exact absurd (lookup_eq_none_iff.mp hv)
        (fun hno => hno (by
          have := lookup_mem hv'
          exact List.mem_map.mpr ⟨(k, v'), hp.mem_iff.mpr this, rfl⟩))

theorem lookup_map_value {α β : Type} (f : α → β) (l : List (String × α)) (k : String) :
    List.lookup k (l.map (fun p => (p.1, f p.2))) = (List.lookup k l).map f := by
  induction l with
  | nil => simp [List.lookup_nil]
  | cons p rest ih =>
    obtain ⟨a, b⟩ := p
    simp only [List.map_cons]
    rw [List.lookup_cons, List.lookup_cons]
    cases hk : (k == a) <;> simp [ih]

theorem lookup_filter_key {α : Type} (q : String → Bool) (l : List (String × α)) (k : String) :
    List.lookup k (l.filter (fun p => q p.1)) = if q k then List.lookup k l else none := by
  induction l with
  | nil => simp [List.lookup_nil]
  | cons p rest ih =>
    obtain ⟨a, b⟩ := p
    by_cases hk : k = a
    · subst hk
      cases hq : q k
      · simp only [List.filter_cons, hq]
        simpa [hq] using ih
      · simp [List.filter_cons, hq, List.lookup_cons]
    · have hbeq : (k == a) = false := by simp [hk]
      cases hq : q a <;>
        simp [List.filter_cons, hq, List.lookup_cons, hbeq, ih]

theorem lookup_append_of_none {α : Type} {l₁ : List (String × α)} (l₂ : List (String × α))
    {k : String} (h : List.lookup k l₁ = none) :
    List.lookup k (l₁ ++ l₂) = List.lookup k l₂ := by
  induction l₁ with
  | nil => simp
  | cons p rest ih =>
    obtain ⟨a, b⟩ := p
    rw [List.lookup_cons] at h
    cases hk : (k == a)
    · rw [hk] at h
      rw [List.cons_append, List.lookup_cons, hk]
      exact ih h
    · rw [hk] at h
      simp at h

theorem lookup_append_of_some {α : Type} {l₁ : List (String × α)} (l₂ : List (String × α))
    {k : String} {v : α} (h : List.lookup k l₁ = some v) :
    List.lookup k (l₁ ++ l₂) = some v := by
  induction l₁ with
  | nil => simp [List.lookup_nil] at h
  | cons p rest ih =>
    obtain ⟨a, b⟩ := p
    rw [List.lookup_cons] at h
    rw [List.cons_append, List.lookup_cons]
    cases hk : (k == a)
    · rw [hk] at h
      exact ih h
    · rw [hk] at h
      simpa using h

theorem lookup_map_overwrite {α : Type} (m : List (String × α)) (k : String) (v : α) :
    List.lookup k (m.map (fun p => if p.1 = k then (k, v) else p)) =
      if (List.lookup k m).isSome then some v else none := by
  induction m with
  | nil => simp [List.lookup_nil]
  | cons p rest ih =>
    obtain ⟨a, b⟩ := p
    by_cases hk : a = k
    · subst hk
      simp [List.lookup_cons]
    · have hbeq : (k == a) = false := by simp [Ne.symm hk]
      simp only [List.map_cons, if_neg hk]
      rw [List.lookup_cons, hbeq, List.lookup_cons, hbeq]
      exact ih

theorem objSet_lookup_self {α : Type} (m : List (String × α)) (k : String) (v : α) :
    List.lookup k (objSet m k v) = some v := by
  unfold objSet
  cases hs : (List.lookup k m).isSome
  · simp only [hs, Bool.false_eq_true, if_false]
    have hnone : List.lookup k m = none := by
      cases h : List.lookup k m
      · rfl
      · rw [h] at hs; simp at hs
    rw [lookup_append_of_none _ hnone, List.lookup_cons]
    simp
  · simp only [hs, if_true]
    rw [lookup_map_overwrite, hs]
    simp

theorem lookup_map_preserve {α : Type} (m : List (String × α)) (k k' : String) (v : α)
    (h : k' ≠ k) :
    List.lookup k' (m.map (fun p => if p.1 = k then (k, v) else p)) = List.lookup k' m := by
  induction m with
  | nil => simp
  | cons p rest ih =>
    obtain ⟨a, b⟩ := p
    by_cases hak : a = k
    · subst hak
      have hbeq : (k' == a) = false := by simp [h]
      simp [List.lookup_cons, hbeq, ih]
    · simp only [List.map_cons, if_neg hak]
      rw [List.lookup_cons, List.lookup_cons]
      cases hk' : (k' == a) <;> simp [ih]

theorem objSet_lookup_other {α : Type} {m : List (String × α)} {k k' : String} {v : α}
    (h : k' ≠ k) : List.lookup k' (objSet m k v) = List.lookup k' m := by
  unfold objSet
  cases hs : (List.lookup k m).isSome
  · simp only [hs, Bool.false_eq_true, if_false]
    cases h' : List.lookup k' m with
    | some v' => rw [lookup_append_of_some _ h']
    | none =>
      rw [lookup_append_of_none _ h', List.lookup_cons]
      have : (k' == k) = false := by simp [h]
      rw [this, List.lookup_nil]
  · simp only [hs, if_true]
    exact lookup_map_preserve m k k' v h

theorem objSet_of_lookup_none {α : Type} {m : List (String × α)} {k : String} (v : α)
    (h : List.lookup k m = none) : objSet m k v = m ++ [(k, v)] := by
  unfold objSet
  rw [h]
  rfl

theorem contains_iff_mem (l : List String) (a : String) : l.contains a = true ↔ a ∈ l := by
  induction l with
  | nil => simp
  | cons x xs ih => simp

theorem stableInsert_perm (le : α → α → Bool) (x : α) (l : List α) :
    (stableInsert le x l).Perm (x :: l) := by
  induction l with
  | nil => simp [stableInsert]
  | cons y ys ih =>
    unfold stableInsert
    by_cases h : (le y x && !(le x y)) = true
    · rw [if_pos h]
      exact (List.Perm.cons y ih).trans (List.Perm.swap x y ys)
    · rw [if_neg h]

theorem jsSortBy_perm (le : α → α → Bool) (l : List α) : (jsSortBy le l).Perm l := by
  induction l with
  | nil => simp [jsSortBy]
  | cons x xs ih =>
    unfold jsSortBy
    simp only [List.foldr_cons]
    exact (stableInsert_perm le x _).trans (List.Perm.cons x ih)

theorem mem_jsSortBy {le : α → α → Bool} {l : List α} {x : α} :
    x ∈ jsSortBy le l ↔ x ∈ l :=
  (jsSortBy_perm le l).mem_iff

/-! Claim C5 — admission control. -/

/-- C5: `shouldRejectInsertion(key)` returns `true` iff the key classifies
as unimportant and the cached usage ratio `totalSize / maxSize` exceeds the
configured cleanup threshold; it returns `false` whenever either condition
fails. -/
theorem c5_should_reject_iff (unimportantKeys : List String) (key : String)
    (totalSize maxStorageSize cleanupThreshold : ℚ) :
    shouldRejectInsertion unimportantKeys key (usageRatioOf totalSize maxStorageSize)
        cleanupThreshold = true ↔
      (isUnimportantKey key unimportantKeys = true ∧
        totalSize / maxStorageSize > cleanupThreshold) := by
  unfold shouldRejectInsertion usageRatioOf
  simp [Bool.and_eq_true]

/-! Claim C6 — minimal-cleanup principle. -/

/-- C6: the eviction-selection target size is
`max(maxSize * 0.8, currentSize - requiredSpace)`; whenever the resulting
space to free `currentSize - targetSize` is not positive, `getKeysToCleanup`
returns the empty list and evicts nothing. -/
theorem c6_no_eviction_when_target_met (records : Ledger) (cfg : LRUConfig)
    (itemSize : String → ℚ) (allKeys : List String)
    (currentSize maxSize requiredSpace now : ℚ)
    (h : currentSize - mathMax (maxSize * mkRat 4 5) (currentSize - requiredSpace) ≤ 0) :
    getKeysToCleanup records cfg itemSize allKeys currentSize maxSize requiredSpace now
      = [] := by
  unfold getKeysToCleanup
  simp [h]

/-- Witness for C6 at a concrete input: a 1000-byte store holding 700 bytes
with no required space frees nothing. -/
theorem c6_no_eviction_when_target_met_witness :
    ((700 : ℚ) - mathMax (1000 * mkRat 4 5) (700 - 0) ≤ 0) ∧
    getKeysToCleanup [] ⟨0, [], false, 0, []⟩ (fun _ => 0) [] 700 1000 0 0 = [] :=
  ⟨by with_unfolding_all decide,
   c6_no_eviction_when_target_met [] ⟨0, [], false, 0, []⟩ (fun _ => 0) [] 700 1000 0 0
     (by with_unfolding_all decide)⟩

/-! Claim C9 — time-based expiry sweep. -/

/-- C9: in a run of the time-based expiry sweep (enabled configuration), a
non-system, non-excluded storage key is treated as expired iff it has no
access record or `now - lastAccess > thresholdDays * 86400000`; every
expired key is removed from both the storage medium and the ledger, and
non-expired keys are untouched.  No capacity figure enters the sweep. -/
theorem c9_expiry_sweep (storageKeys : List String) (records : Ledger)
    (cfg : LRUConfig) (now : ℚ) (he : cfg.enableTimeBasedCleanup = true) (k : String) :
    (k ∈ expiredKeysOf storageKeys records cfg now ↔
       (k ∈ storageKeys ∧ isSystemKey k = false ∧ cfg.excludeKeys.contains k = false ∧
         (List.lookup k records = none ∨ ∃ r, List.lookup k records = some r ∧
            now - r.lastAccess > cfg.timeCleanupThreshold * 86400000)))
  ∧ (k ∈ expiredKeysOf storageKeys records cfg now →
       k ∉ (performTimeBasedCleanup storageKeys records cfg now).1 ∧
       List.lookup k (performTimeBasedCleanup storageKeys records cfg now).2 = none)
  ∧ (k ∉ expiredKeysOf storageKeys records cfg now →
       ((k ∈ (performTimeBasedCleanup storageKeys records cfg now).1 ↔ k ∈ storageKeys) ∧
        List.lookup k (performTimeBasedCleanup storageKeys records cfg now).2 =
          List.lookup k records)) := by
  have harith : cfg.timeCleanupThreshold * (24 * 60 * 60 * 1000) =
      cfg.timeCleanupThreshold * 86400000 := by norm_num
  have hperf : performTimeBasedCleanup storageKeys records cfg now =
      (storageKeys.filter (fun k2 => !((expiredKeysOf storageKeys records cfg now).contains k2)),
       records.filter (fun p => !((expiredKeysOf storageKeys records cfg now).contains p.1))) := by
    unfold performTimeBasedCleanup
    rw [he]
    rfl
  refine ⟨?_, ?_, ?_⟩
  · unfold expiredKeysOf
    rw [List.mem_filter]
    rw [harith]
    constructor
    · rintro ⟨hks, hpred⟩
      simp only [Bool.and_eq_true, Bool.not_eq_true'] at hpred
      obtain ⟨⟨hsys, hexc⟩, hmatch⟩ := hpred
      refine ⟨hks, hsys, hexc, ?_⟩
      cases hr : List.lookup k records with
      | none => exact Or.inl rfl
      | some r =>
        rw [hr] at hmatch
        exact Or.inr ⟨r, rfl, by simpa using hmatch⟩
    · rintro ⟨hks, hsys, hexc, hcond⟩
      refine ⟨hks, ?_⟩
      simp only [Bool.and_eq_true, Bool.not_eq_true']
      refine ⟨⟨hsys, hexc⟩, ?_⟩
      cases hr : List.lookup k records with
      | none => rfl
      | some r =>
        rcases hcond with hnone | ⟨r', hr', hgt⟩
        · rw [hr] at hnone; cases hnone
        · rw [hr] at hr'
          obtain rfl : r = r' := by injection hr'
          simpa using hgt
  · intro hk
    have hc : (expiredKeysOf storageKeys records cfg now).contains k = true :=
      (contains_iff_mem _ k).mpr hk
    constructor
    · rw [hperf]
      dsimp only
      intro hmem
      obtain ⟨h1, h2⟩ := List.mem_filter.mp hmem
      rw [hc] at h2
      simp at h2
    · rw [hperf]
      dsimp only
      have hl := lookup_filter_key
        (fun s => !((expiredKeysOf storageKeys records cfg now).contains s)) records k
      rw [hc] at hl
      simpa only [Bool.not_true, Bool.false_eq_true, if_false] using hl
  · intro hk
    have hc : (expiredKeysOf storageKeys records cfg now).contains k = false := by
      cases h2 : (expiredKeysOf storageKeys records cfg now).contains k
      · rfl
      · exact absurd ((contains_iff_mem _ _).mp h2) hk
    constructor
    · rw [hperf]
      dsimp only
      constructor
      · intro hmem
        exact (List.mem_filter.mp hmem).1
      · intro hmem
        refine List.mem_filter.mpr ⟨hmem, ?_⟩
        rw [hc]
        rfl
    · rw [hperf]
      dsimp only
      have hl := lookup_filter_key
        (fun s => !((expiredKeysOf storageKeys records cfg now).contains s)) records k
      rw [hc] at hl
      simpa only [Bool.not_false, if_true] using hl

/-- Witness for C9 at a concrete state: with a 7-day threshold at time
`t = 700000000`, the stale key is expired and swept from storage and ledger,
the fresh key is kept. -/
theorem c9_expiry_sweep_witness :
    (("old" : String) ∈ expiredKeysOf ["old", "new"]
        [("old", ⟨1, 1, 5⟩), ("new", ⟨699999999, 1, 5⟩)] ⟨0, [], true, 7, []⟩ 700000000) ∧
    (("old" : String) ∉ (performTimeBasedCleanup ["old", "new"]
        [("old", ⟨1, 1, 5⟩), ("new", ⟨699999999, 1, 5⟩)] ⟨0, [], true, 7, []⟩ 700000000).1) := by
  have h := c9_expiry_sweep ["old", "new"]
    [("old", ⟨1, 1, 5⟩), ("new", ⟨699999999, 1, 5⟩)] ⟨0, [], true, 7, []⟩ 700000000 rfl "old"
  have hmem : ("old" : String) ∈ expiredKeysOf ["old", "new"]
      [("old", ⟨1, 1, 5⟩), ("new", ⟨699999999, 1, 5⟩)] ⟨0, [], true, 7, []⟩ 700000000 := by
    with_unfolding_all decide
  exact ⟨hmem, (h.2.1 hmem).1⟩

/-! Claim C10 — localStorage adapter quota handling. -/

/-- C10: when a `setItem` on the localStorage adapter hits a quota-exceeded
error, the adapter clears the entire store — every previously stored entry,
excluded keys and the engine's own snapshot included — and retries the write
once on the emptied store; if the new entry fits the quota the result is a
store holding only that entry, and an error reaches the caller only when
even the retry on the empty store fails. -/
theorem c10_quota_clear_retry (quota : ℚ) (store : List (String × String))
    (key v : String) (h : rawSetItem quota store key v = Except.error ()) :
    (strBytes key + strBytes v ≤ quota →
        adapterSetItem quota store key v = Except.ok [(key, v)]) ∧
    (quota < strBytes key + strBytes v →
        adapterSetItem quota store key v = Except.error ()) := by
  have hempty : objSet ([] : List (String × String)) key v = [(key, v)] := rfl
  have hsize : storeSize [(key, v)] = strBytes key + strBytes v := by
    simp [storeSize]
  constructor
  · intro hle
    have hcond : ¬ (storeSize (objSet ([] : List (String × String)) key v) > quota) := by
      rw [hempty, hsize]
      exact not_lt.mpr hle
    have hretry : rawSetItem quota [] key v = Except.ok [(key, v)] := by
      unfold rawSetItem
      rw [if_neg hcond, hempty]
    simp [adapterSetItem, h, hretry]
  · intro hlt
    have hcond : storeSize (objSet ([] : List (String × String)) key v) > quota := by
      rw [hempty, hsize]
      exact hlt
    have hretry : rawSetItem quota [] key v = Except.error () := by
      unfold rawSetItem
      rw [if_pos hcond]
    simp [adapterSetItem, h, hretry]

/-! Claim C4 — automatic repair policy (corrected). -/

/-- Counterexample to C4 as stated: a state with two enumerable keys and no
ledger entries has `corruptedRecords = 0` and
`missingRecords > 0.5 * totalKeys`, yet `autoRepairAccessRecords` performs
the missing-records repair, not a full rebuild — the `missingRecords > 0 &&
corruptedRecords === 0` branch is tested first and wins. -/
theorem c4_counterexample :
    (checkAccessRecordsHealth ["a", "b"] [] []).corruptedRecords = 0 ∧
    ((checkAccessRecordsHealth ["a", "b"] [] []).missingRecords : ℚ) >
      ((checkAccessRecordsHealth ["a", "b"] [] []).totalKeys : ℚ) * mkRat 1 2 ∧
    autoRepairAccessRecords (checkAccessRecordsHealth ["a", "b"] [] []) =
      RepairAction.initRecords :=
  ⟨by with_unfolding_all rfl, by with_unfolding_all decide, by with_unfolding_all rfl⟩

/-- C4 (amended): on every health-check result the automatic repair performs
a full rebuild iff `corruptedRecords > 0` (when `corruptedRecords = 0`, any
missing records — even more than half — are repaired by the
missing-records branch instead); and the rebuild regenerates exactly one entry per enumerable
non-system, non-excluded key, with `lastAccess` randomized within the past
7 days and `accessCount` randomized in 1..5. -/
theorem c4_repair_amended :
    (∀ (storageKeys : List String) (records : Ledger) (excl : List String),
       autoRepairAccessRecords (checkAccessRecordsHealth storageKeys records excl) =
           RepairAction.rebuild ↔
         0 < (checkAccessRecordsHealth storageKeys records excl).corruptedRecords)
  ∧ (∀ (storageKeys excl : List String) (itemSize : String → ℚ) (now : ℚ)
       (rand1 rand2 : String → ℚ),
       (∀ k2, 0 ≤ rand1 k2 ∧ rand1 k2 < 1) → (∀ k2, 0 ≤ rand2 k2 ∧ rand2 k2 < 1) →
       ((rebuildAccessRecords storageKeys excl itemSize now rand1 rand2).map Prod.fst =
           storageKeys.filter (fun k => !(isSystemKey k) && !(excl.contains k))) ∧
       (∀ k r, (k, r) ∈ rebuildAccessRecords storageKeys excl itemSize now rand1 rand2 →
         now - 7 * 86400000 < r.lastAccess ∧ r.lastAccess ≤ now ∧
         1 ≤ r.accessCount ∧ r.accessCount ≤ 5)) := by
  constructor
  · intro storageKeys records excl
    have hh : (checkAccessRecordsHealth storageKeys records excl).isHealthy =
        (decide ((checkAccessRecordsHealth storageKeys records excl).missingRecords = 0) &&
         decide ((checkAccessRecordsHealth storageKeys records excl).corruptedRecords = 0)) := rfl
    set H := checkAccessRecordsHealth storageKeys records excl with hH
    unfold autoRepairAccessRecords
    rw [hh]
    by_cases hc : H.corruptedRecords = 0 <;> by_cases hm : H.missingRecords = 0
    · simp [hc, hm]
    · have hm' : H.missingRecords > 0 := Nat.pos_of_ne_zero hm
      simp [hc, hm, hm']
    · have hc' : H.corruptedRecords > 0 := Nat.pos_of_ne_zero hc
      simp [hc, hm, hc']
    · have hc' : H.corruptedRecords > 0 := Nat.pos_of_ne_zero hc
      simp [hc, hm, hc']
  · intro storageKeys excl itemSize now rand1 rand2 h1 h2
    constructor
    · unfold rebuildAccessRecords
      rw [List.map_map]
      exact List.map_id _
    · intro k r hmem
      unfold rebuildAccessRecords at hmem
      obtain ⟨a, _, heq⟩ := List.mem_map.mp hmem
      have hr : r = { lastAccess := now - rand1 a * 7 * (24 * 60 * 60 * 1000)
                      accessCount := ((rand2 a * 5).floor : ℚ) + 1
                      size := itemSize a } := (congrArg Prod.snd heq).symm
      subst hr
      obtain ⟨h1a, h1b⟩ := h1 a
      obtain ⟨h2a, h2b⟩ := h2 a
      refine ⟨?_, ?_, ?_, ?_⟩
      · show now - 7 * 86400000 < now - rand1 a * 7 * (24 * 60 * 60 * 1000)
        nlinarith [h1b]
      · show now - rand1 a * 7 * (24 * 60 * 60 * 1000) ≤ now
        nlinarith [h1a]
      · show (1 : ℚ) ≤ ((rand2 a * 5).floor : ℚ) + 1
        have hfl : (0 : ℤ) ≤ (rand2 a * 5).floor := by
          rw [Rat.le_floor]
          push_cast
          nlinarith [h2a]
        have hcast : (0 : ℚ) ≤ ((rand2 a * 5).floor : ℚ) := by exact_mod_cast hfl
        linarith
      · show ((rand2 a * 5).floor : ℚ) + 1 ≤ 5
        have hfl : ¬ ((5 : ℤ) ≤ (rand2 a * 5).floor) := by
          rw [Rat.le_floor]
          push_cast
          nlinarith [h2b]
        have hfl4 : (rand2 a * 5).floor ≤ 4 := by omega
        have hcast : ((rand2 a * 5).floor : ℚ) ≤ 4 := by exact_mod_cast hfl4
        linarith

/-- Witness for C4 (amended): a corrupted record triggers rebuild, and a
concrete rebuild with the random source fixed at 0 regenerates exactly the
one non-system key. -/
theorem c4_repair_amended_witness :
    (autoRepairAccessRecords (checkAccessRecordsHealth ["a"] [("a", ⟨0, 1, 5⟩)] []) =
        RepairAction.rebuild ↔
      0 < (checkAccessRecordsHealth ["a"] [("a", ⟨0, 1, 5⟩)] []).corruptedRecords) ∧
    ((rebuildAccessRecords ["a", "__s__"] [] (fun _ => 3) 1000000000
        (fun _ => 0) (fun _ => 0)).map Prod.fst =
      (["a", "__s__"].filter (fun k => !(isSystemKey k) && !(([] : List String).contains k)))) :=
  ⟨c4_repair_amended.1 ["a"] [("a", ⟨0, 1, 5⟩)] [],
   (c4_repair_amended.2 ["a", "__s__"] [] (fun _ => 3) 1000000000 (fun _ => 0) (fun _ => 0)
      (fun _ => ⟨by norm_num, by norm_num⟩) (fun _ => ⟨by norm_num, by norm_num⟩)).1⟩

/-! Claim C3 — untracked keys in tier 2 (code bug). -/

/-- C3 (code bug evaluation): with patterns `["x"]`, key `xa` tracked (old,
small) and key `xb` untracked, the LRU comparator does sort the untracked
`xb` before the tracked `xa`, but the selection loop of
`getLayeredCleanupKeys` skips keys without an access record (`if (record)`),
so the returned list contains the tracked key only — the untracked key is
never selected, contradicting both the claim and the source's own comment
that keys without access records are cleaned up first. -/
theorem c3_untracked_key_never_selected :
    sortKeysByLRU [("xa", ⟨100, 1, 10⟩)] ["xa", "xb"] = ["xb", "xa"] ∧
    getLayeredCleanupKeys [("xa", ⟨100, 1, 10⟩)] ["x"] ["xb", "xa"] 5 = ["xa"] :=
  ⟨by with_unfolding_all rfl, by with_unfolding_all rfl⟩

/-! Claim C8 — eviction never touches system or excluded keys. -/

theorem selLoop_mem {records : Ledger} {need : ℚ} :
    ∀ (l acc : List String) (freed : ℚ) (x : String),
      x ∈ (selLoop records need l acc freed).1 → x ∈ acc ∨ x ∈ l := by
  intro l
  induction l with
  | nil =>
    intro acc freed x hx
    exact Or.inl hx
  | cons key rest ih =>
    intro acc freed x hx
    unfold selLoop at hx
    cases hr : List.lookup key records with
    | none =>
      rw [hr] at hx
      rcases ih acc freed x hx with h | h
      · exact Or.inl h
      · exact Or.inr (List.mem_cons_of_mem _ h)
    | some r =>
      rw [hr] at hx
      dsimp only at hx
      by_cases hc : need ≤ freed + r.size
      · rw [if_pos hc] at hx
        rcases List.mem_append.mp hx with h | h
        · exact Or.inl h
        · simp at h
          subst h
          exact Or.inr (List.mem_cons_self _ _)
      · rw [if_neg hc] at hx
        rcases ih (acc ++ [key]) (freed + r.size) x hx with h | h
        · rcases List.mem_append.mp h with h2 | h2
          · exact Or.inl h2
          · simp at h2
            subst h2
            exact Or.inr (List.mem_cons_self _ _)
        · exact Or.inr (List.mem_cons_of_mem _ h)

theorem layered_mem {records : Ledger} {patterns cleanableKeys : List String}
    {need : ℚ} {x : String}
    (h : x ∈ getLayeredCleanupKeys records patterns cleanableKeys need) :
    x ∈ cleanableKeys := by
  unfold getLayeredCleanupKeys at h
  dsimp only at h
  split at h
  · rcases selLoop_mem _ _ _ _ h with h2 | h2
    · simp at h2
    · exact (List.mem_filter.mp (mem_jsSortBy.mp h2)).1
  · split at h
    · rcases selLoop_mem _ _ _ _ h with h2 | h2
      · rcases selLoop_mem _ _ _ _ h2 with h3 | h3
        · simp at h3
        · exact (List.mem_filter.mp (mem_jsSortBy.mp h3)).1
      · exact (List.mem_filter.mp (mem_jsSortBy.mp (by
          unfold sortKeysByLRU at h2
          exact h2))).1
    · rcases selLoop_mem _ _ _ _ h with h2 | h2
      · rcases selLoop_mem _ _ _ _ h2 with h3 | h3
        · rcases selLoop_mem _ _ _ _ h3 with h4 | h4
          · simp at h4
          · exact (List.mem_filter.mp (mem_jsSortBy.mp h4)).1
        · unfold sortKeysByLRU at h3
          exact (List.mem_filter.mp (mem_jsSortBy.mp h3)).1
      · unfold sortKeysByLRU at h2
        exact (List.mem_filter.mp (mem_jsSortBy.mp h2)).1

/-- C8: every key returned by an eviction-selection call is neither a system
key (double-underscore wrapped, used by the engine for its own state) nor a
member of the configured `excludeKeys`. -/
theorem c8_no_system_or_excluded (records : Ledger) (cfg : LRUConfig)
    (itemSize : String → ℚ) (allKeys : List String)
    (currentSize maxSize requiredSpace now : ℚ) (k : String)
    (h : k ∈ getKeysToCleanup records cfg itemSize allKeys currentSize maxSize
          requiredSpace now) :
    isSystemKey k = false ∧ cfg.excludeKeys.contains k = false := by
  unfold getKeysToCleanup at h
  dsimp only at h
  split at h
  · simp at h
  · have hc := layered_mem h
    have hf := List.mem_filter.mp hc
    have hp := hf.2
    simp only [Bool.and_eq_true, Bool.not_eq_true'] at hp
    exact hp

/-- Witness for C8: on a concrete store where the unimportant key `a` is
selected, the theorem yields that `a` is neither a system key nor
excluded. -/
theorem c8_no_system_or_excluded_witness :
    (("a" : String) ∈ getKeysToCleanup [("a", ⟨100, 1, 10⟩)]
        ⟨10000000, ["ex"], false, 7, ["a"]⟩ (fun _ => 10) ["__s__", "ex", "a"]
        1000 1000 300 1000) ∧
    (isSystemKey ("a") = false ∧ (["ex"] : List String).contains ("a") = false) :=
  ⟨by with_unfolding_all decide,
   c8_no_system_or_excluded [("a", ⟨100, 1, 10⟩)] ⟨10000000, ["ex"], false, 7, ["a"]⟩
     (fun _ => 10) ["__s__", "ex", "a"] 1000 1000 300 1000 ("a")
     (by with_unfolding_all decide)⟩

/-! Claim C2 — layered selection refines the spec's tiered description. -/

theorem sumSizes_nil (records : Ledger) : sumSizes records [] = 0 := rfl

theorem sumSizes_cons (records : Ledger) (k : String) (l : List String) :
    sumSizes records (k :: l) = sizeOrZero records k + sumSizes records l := by
  simp [sumSizes]

theorem greedy_nonpos {records : Ledger} {need : ℚ} (h : need ≤ 0)
    (l : List String) : greedySpec records need l = [] := by
  cases l with
  | nil => rfl
  | cons k rest =>
    unfold greedySpec
    rw [if_pos h]

theorem greedy_subset {records : Ledger} :
    ∀ {need : ℚ} {l : List String} {x : String}, x ∈ greedySpec records need l → x ∈ l := by
  intro need l
  induction l generalizing need with
  | nil => intro x hx; simp [greedySpec] at hx
  | cons k rest ih =>
    intro x hx
    unfold greedySpec at hx
    by_cases hn : need ≤ 0
    · rw [if_pos hn] at hx
      simp at hx
    · rw [if_neg hn] at hx
      cases hr : List.lookup k records with
      | none =>
        rw [hr] at hx
        exact List.mem_cons_of_mem _ (ih hx)
      | some r =>
        rw [hr] at hx
        rcases List.mem_cons.mp hx with h2 | h2
        · subst h2; exact List.mem_cons_self _ _
        · exact List.mem_cons_of_mem _ (ih h2)

theorem greedy_cons (records : Ledger) (need : ℚ) (k : String) (l : List String) :
    greedySpec records need (k :: l) =
      if need ≤ 0 then [] else
      match List.lookup k records with
      | none => greedySpec records need l
      | some r => k :: greedySpec records (need - r.size) l := by
  conv_lhs => unfold greedySpec

theorem greedy_append (records : Ledger) :
    ∀ (l₁ l₂ : List String) (need : ℚ),
      greedySpec records need (l₁ ++ l₂) =
        greedySpec records need l₁ ++
          greedySpec records (need - sumSizes records (greedySpec records need l₁)) l₂ := by
  intro l₁
  induction l₁ with
  | nil =>
    intro l₂ need
    simp [greedySpec, sumSizes_nil]
  | cons k rest ih =>
    intro l₂ need
    by_cases hn : need ≤ 0
    · rw [List.cons_append, greedy_nonpos hn, greedy_nonpos hn, sumSizes_nil,
        sub_zero, greedy_nonpos hn]
      rfl
    · rw [List.cons_append, greedy_cons records need k (rest ++ l₂),
        greedy_cons records need k rest, if_neg hn, if_neg hn]
      cases hr : List.lookup k records with
      | none =>
        dsimp only
        exact ih l₂ need
      | some r =>
        dsimp only
        have hsz : sizeOrZero records k = r.size := by
          unfold sizeOrZero
          rw [hr]
        rw [ih l₂ (need - r.size), sumSizes_cons, hsz, List.cons_append]
        congr 2
        ring_nf

theorem selLoop_eq_greedy {records : Ledger} {need : ℚ} :
    ∀ (l acc : List String) (freed : ℚ), freed < need →
      selLoop records need l acc freed =
        (acc ++ greedySpec records (need - freed) l,
         freed + sumSizes records (greedySpec records (need - freed) l),
         decide (need ≤ freed + sumSizes records (greedySpec records (need - freed) l))) := by
  intro l
  induction l with
  | nil =>
    intro acc freed hf
    have : decide (need ≤ freed) = false := decide_eq_false (not_le.mpr hf)
    simp [selLoop, greedySpec, sumSizes_nil, this]
  | cons key rest ih =>
    intro acc freed hf
    have hpos : ¬ (need - freed ≤ 0) := by
      intro hcontra
      exact absurd (by linarith : need ≤ freed) (not_le.mpr hf)
    unfold selLoop greedySpec
    rw [if_neg hpos]
    cases hr : List.lookup key records with
    | none =>
      dsimp only
      exact ih acc freed hf
    | some r =>
      dsimp only
      have hsz : sizeOrZero records key = r.size := by
        unfold sizeOrZero
        rw [hr]
      by_cases hc : need ≤ freed + r.size
      · rw [if_pos hc]
        have hstop : need - freed - r.size ≤ 0 := by linarith
        rw [greedy_nonpos hstop, sumSizes_cons, sumSizes_nil, hsz]
        have : decide (need ≤ freed + (r.size + 0)) = true :=
          decide_eq_true (by linarith)
        rw [this]
        refine congrArg₂ Prod.mk rfl (congrArg₂ Prod.mk (by ring) rfl)
      · rw [if_neg hc]
        have hf' : freed + r.size < need := lt_of_not_le hc
        rw [ih (acc ++ [key]) (freed + r.size) hf']
        have harg : need - (freed + r.size) = need - freed - r.size := by ring
        rw [harg, sumSizes_cons, hsz]
        refine congrArg₂ Prod.mk ?_ (congrArg₂ Prod.mk (by ring) ?_)
        · rw [List.append_assoc]
          rfl
        · have : freed + r.size + sumSizes records
              (greedySpec records (need - freed - r.size) rest) =
              freed + (r.size + sumSizes records
                (greedySpec records (need - freed - r.size) rest)) := by ring
          rw [this]

theorem lruLe_eq (records : Ledger) :
    (fun a b => decide (lruCmp records a b ≤ 0)) = specLruLe records := by
  funext a b
  unfold lruCmp specLruLe
  cases ha : List.lookup a records with
  | none =>
    cases hb : List.lookup b records with
    | none => norm_num
    | some rb => norm_num
  | some ra =>
    cases hb : List.lookup b records with
    | none => norm_num
    | some rb =>
      dsimp only
      rw [decide_eq_decide]
      by_cases heq : ra.lastAccess - rb.lastAccess = 0
      · have hla : ra.lastAccess = rb.lastAccess := by linarith
        rw [if_neg (by simpa using heq)]
        constructor
        · intro h
          exact Or.inr ⟨hla, by linarith⟩
        · intro h
          rcases h with h | ⟨_, h⟩
          · exact absurd hla (ne_of_lt h)
          · linarith
      · rw [if_pos heq]
        constructor
        · intro h
          exact Or.inl (lt_of_le_of_ne (by linarith) (fun hc => heq (by rw [hc]; ring)))
        · intro h
          rcases h with h | ⟨h, _⟩
          · linarith
          · exact absurd h (fun hc => heq (by rw [hc]; ring))

theorem sizeLe_eq (records : Ledger) :
    (fun a b => decide (sizeOrZero records b - sizeOrZero records a ≤ 0)) =
      specSizeDescLe records := by
  funext a b
  unfold specSizeDescLe
  rw [decide_eq_decide]
  exact sub_nonpos

/-- C2: for every eviction-selection call with a positive shortfall, the
layered selection of the source equals the spec's tiered description:
greedy selection — stopping as soon as the accumulated recorded sizes reach
the shortfall — over (tier 1) unimportant keys with recorded size over
5 KiB sorted by descending size, then (tier 2) unimportant not-large keys in
LRU order, then (tier 3) important keys in the same LRU order. -/
theorem c2_layered_refines_spec (records : Ledger) (patterns cleanableKeys : List String)
    (need : ℚ) (hpos : 0 < need) :
    getLayeredCleanupKeys records patterns cleanableKeys need =
      specTieredSelection records patterns cleanableKeys need := by
  unfold getLayeredCleanupKeys specTieredSelection sortKeysByLRU
  rw [lruLe_eq, sizeLe_eq]
  dsimp only
  set t1 := jsSortBy (specSizeDescLe records)
    (cleanableKeys.filter (fun k => isUnimportantKey k patterns && isLargeB records k))
    with ht1
  have h1 := @selLoop_eq_greedy records need t1 [] 0 hpos
  rw [h1]
  dsimp only
  simp only [sub_zero, zero_add, List.nil_append]
  set G1 := greedySpec records need t1 with hG1
  rw [List.append_assoc, greedy_append records t1 _ need, ← hG1]
  by_cases hstop1 : need ≤ sumSizes records G1
  · rw [if_pos (decide_eq_true hstop1)]
    rw [greedy_nonpos (by linarith : need - sumSizes records G1 ≤ 0), List.append_nil]
  · rw [if_neg (fun hcontra => hstop1 (of_decide_eq_true hcontra))]
    have hlt1 : sumSizes records G1 < need := not_le.mp hstop1
    have hfil2 : cleanableKeys.filter
        (fun k => isUnimportantKey k patterns && !(isLargeB records k) && !(G1.contains k)) =
        cleanableKeys.filter
          (fun k => isUnimportantKey k patterns && !(isLargeB records k)) := by
      apply List.filter_congr
      intro x hx
      by_cases hq : (isUnimportantKey x patterns && !(isLargeB records x)) = true
      · have hlarge : isLargeB records x = false := by
          have h2 := hq
          simp only [Bool.and_eq_true, Bool.not_eq_true'] at h2
          exact h2.2
        have hnot : G1.contains x = false := by
          cases hcx : G1.contains x
          · rfl
          · have hxt1 : x ∈ t1 := greedy_subset ((contains_iff_mem _ _).mp hcx)
            have hp1 := (List.mem_filter.mp (mem_jsSortBy.mp hxt1)).2
            simp only [Bool.and_eq_true] at hp1
            have hL := hp1.2
            rw [hlarge] at hL
            cases hL
        rw [hnot]
        simp only [Bool.not_false, Bool.and_true]
      · simp only [Bool.not_eq_true] at hq
        rw [hq]
        simp
    rw [hfil2]
    set t2 := jsSortBy (specLruLe records)
      (cleanableKeys.filter (fun k => isUnimportantKey k patterns && !(isLargeB records k)))
      with ht2
    have h2 := @selLoop_eq_greedy records need t2 G1
      (sumSizes records G1) hlt1
    rw [h2]
    dsimp only
    set G2 := greedySpec records (need - sumSizes records G1) t2 with hG2
    rw [greedy_append records t2 _ (need - sumSizes records G1), ← hG2]
    by_cases hstop2 : need ≤ sumSizes records G1 + sumSizes records G2
    · rw [if_pos (decide_eq_true hstop2)]
      rw [greedy_nonpos (by linarith : need - sumSizes records G1 - sumSizes records G2 ≤ 0),
        List.append_nil]
    · rw [if_neg (fun hcontra => hstop2 (of_decide_eq_true hcontra))]
      have hlt2 : sumSizes records G1 + sumSizes records G2 < need := not_le.mp hstop2
      have hfil3 : cleanableKeys.filter
          (fun k => !(isUnimportantKey k patterns) && !((G1 ++ G2).contains k)) =
          cleanableKeys.filter (fun k => !(isUnimportantKey k patterns)) := by
        apply List.filter_congr
        intro x hx
        by_cases hq : (!(isUnimportantKey x patterns)) = true
        · have hu : isUnimportantKey x patterns = false := by simpa using hq
          have hnot : (G1 ++ G2).contains x = false := by
            cases hcx : (G1 ++ G2).contains x
            · rfl
            · have hx12 := (contains_iff_mem _ _).mp hcx
              have hxu : isUnimportantKey x patterns = true := by
                rcases List.mem_append.mp hx12 with hmem | hmem
                · have hxt := greedy_subset hmem
                  have hp := (List.mem_filter.mp (mem_jsSortBy.mp hxt)).2
                  simp only [Bool.and_eq_true] at hp
                  exact hp.1
                · have hxt := greedy_subset hmem
                  have hp := (List.mem_filter.mp (mem_jsSortBy.mp hxt)).2
                  simp only [Bool.and_eq_true] at hp
                  exact hp.1
              rw [hu] at hxu
              cases hxu
          rw [hnot]
          simp only [Bool.not_false, Bool.and_true]
        · simp only [Bool.not_eq_true] at hq
          rw [hq]
          simp
      rw [hfil3]
      set t3 := jsSortBy (specLruLe records)
        (cleanableKeys.filter (fun k => !(isUnimportantKey k patterns))) with ht3
      have h3 := @selLoop_eq_greedy records need t3 (G1 ++ G2)
        (sumSizes records G1 + sumSizes records G2) hlt2
      rw [h3]
      dsimp only
      rw [sub_sub, List.append_assoc]

/-- Witness for C2 at a concrete input: one unimportant large key, one
unimportant small key, one important key, shortfall 6000. -/
theorem c2_layered_refines_spec_witness :
    ((0 : ℚ) < 6000) ∧
    getLayeredCleanupKeys
        [("xbig", ⟨50, 1, 6000⟩), ("xsmall", ⟨10, 1, 100⟩), ("keep", ⟨5, 2, 300⟩)]
        ["x"] ["xbig", "xsmall", "keep"] 6000 =
      specTieredSelection
        [("xbig", ⟨50, 1, 6000⟩), ("xsmall", ⟨10, 1, 100⟩), ("keep", ⟨5, 2, 300⟩)]
        ["x"] ["xbig", "xsmall", "keep"] 6000 :=
  ⟨by norm_num,
   c2_layered_refines_spec
     [("xbig", ⟨50, 1, 6000⟩), ("xsmall", ⟨10, 1, 100⟩), ("keep", ⟨5, 2, 300⟩)]
     ["x"] ["xbig", "xsmall", "keep"] 6000 (by norm_num)⟩

/-! Claim C1 — codec round trip (corrected). -/

theorem encDigitsAux_congr : ∀ (n fuel fuel' : Nat), n < fuel → n < fuel' →
    encDigitsAux fuel n = encDigitsAux fuel' n := by
  intro n
  induction n using Nat.strong_induction_on with
  | _ n ih =>
    intro fuel fuel' h h'
    cases fuel with
    | zero => omega
    | succ f =>
      cases fuel' with
      | zero => omega
      | succ f' =>
        unfold encDigitsAux
        by_cases hn : n < 62
        · rw [if_pos hn, if_pos hn]
        · rw [if_neg hn, if_neg hn]
          have hd : n / 62 < n := Nat.div_lt_self (by omega) (by omega)
          rw [ih (n / 62) hd f f' (by omega) (by omega)]

theorem encDigits_eq (n : Nat) : encDigits n =
    if n < 62 then [n] else encDigits (n / 62) ++ [n % 62] := by
  show encDigitsAux (n + 1) n = _
  unfold encDigitsAux
  by_cases hn : n < 62
  · rw [if_pos hn, if_pos hn]
  · rw [if_neg hn, if_neg hn]
    have hd : n / 62 < n := Nat.div_lt_self (by omega) (by omega)
    rw [encDigitsAux_congr (n / 62) n (n / 62 + 1) (by omega) (by omega)]
    rfl

theorem encDigits_ne_nil (n : Nat) : encDigits n ≠ [] := by
  rw [encDigits_eq]
  by_cases hn : n < 62
  · rw [if_pos hn]
    simp
  · rw [if_neg hn]
    simp

theorem encDigits_lt (n : Nat) : ∀ d ∈ encDigits n, d < 62 := by
  induction n using Nat.strong_induction_on with
  | _ n ih =>
    intro d hd
    rw [encDigits_eq] at hd
    by_cases hn : n < 62
    · rw [if_pos hn] at hd
      simp at hd
      omega
    · rw [if_neg hn] at hd
      rcases List.mem_append.mp hd with h2 | h2
      · exact ih (n / 62) (Nat.div_lt_self (by omega) (by omega)) d h2
      · simp at h2
        omega

theorem encDigits_inj : ∀ m n : Nat, encDigits m = encDigits n → m = n := by
  intro m
  induction m using Nat.strong_induction_on with
  | _ m ih =>
    intro n h
    rw [encDigits_eq m, encDigits_eq n] at h
    by_cases hm : m < 62 <;> by_cases hn : n < 62
    · rw [if_pos hm, if_pos hn] at h
      simpa using h
    · rw [if_pos hm, if_neg hn] at h
      have hlen := congrArg List.length h
      rw [List.length_append, List.length_singleton, List.length_singleton] at hlen
      have hzero : (encDigits (n / 62)).length = 0 := by omega
      exact absurd (List.length_eq_zero.mp hzero) (encDigits_ne_nil _)
    · rw [if_neg hm, if_pos hn] at h
      have hlen := congrArg List.length h
      rw [List.length_append, List.length_singleton, List.length_singleton] at hlen
      have hzero : (encDigits (m / 62)).length = 0 := by omega
      exact absurd (List.length_eq_zero.mp hzero) (encDigits_ne_nil _)
    · rw [if_neg hm, if_neg hn] at h
      obtain ⟨h1, h2⟩ := List.append_inj' h rfl
      have hdiv : m / 62 = n / 62 :=
        ih (m / 62) (Nat.div_lt_self (by omega) (by omega)) (n / 62) h1
      have hmod : m % 62 = n % 62 := by simpa using h2
      omega

theorem base62_getD_inj :
    ∀ d1 < 62, ∀ d2 < 62,
      base62Chars.getD d1 'a' = base62Chars.getD d2 'a' → d1 = d2 := by
  decide

theorem map_digits_inj : ∀ (l₁ l₂ : List Nat),
    (∀ d ∈ l₁, d < 62) → (∀ d ∈ l₂, d < 62) →
    l₁.map (fun d => base62Chars.getD d 'a') = l₂.map (fun d => base62Chars.getD d 'a') →
    l₁ = l₂ := by
  intro l₁
  induction l₁ with
  | nil =>
    intro l₂ _ _ h
    cases l₂ with
    | nil => rfl
    | cons b bs => simp at h
  | cons a as ih =>
    intro l₂ h1 h2 h
    cases l₂ with
    | nil => simp at h
    | cons b bs =>
      simp only [List.map_cons, List.cons.injEq] at h
      obtain ⟨hhead, htail⟩ := h
      have hab : a = b :=
        base62_getD_inj a (h1 a (List.mem_cons_self _ _)) b (h2 b (List.mem_cons_self _ _)) hhead
      subst hab
      exact congrArg (a :: ·)
        (ih bs (fun d hd => h1 d (List.mem_cons_of_mem _ hd))
          (fun d hd => h2 d (List.mem_cons_of_mem _ hd)) htail)

theorem encodeKeyIndex_inj {m n : Nat} (h : encodeKeyIndex m = encodeKeyIndex n) :
    m = n := by
  unfold encodeKeyIndex at h
  have hdata := congrArg String.data h
  exact encDigits_inj m n (map_digits_inj _ _ (encDigits_lt m) (encDigits_lt n) hdata)

theorem kpart_lookup : ∀ (l : Ledger) (i0 j : Nat) (hj : j < l.length),
    List.lookup (encodeKeyIndex (i0 + j))
        ((kpart i0 l).map (fun p => (p.1, JValue.jstr p.2)))
      = some (JValue.jstr (l.get ⟨j, hj⟩).1) := by
  intro l
  induction l with
  | nil =>
    intro i0 j hj
    simp at hj
  | cons e rest ih =>
    intro i0 j hj
    obtain ⟨key, r⟩ := e
    cases j with
    | zero =>
      simp only [kpart, List.map_cons, Nat.add_zero]
      rw [List.lookup_cons]
      simp
    | succ j' =>
      have hne : encodeKeyIndex (i0 + (j' + 1)) ≠ encodeKeyIndex i0 := fun hc => by
        have := encodeKeyIndex_inj hc
        omega
      have hbeq : (encodeKeyIndex (i0 + (j' + 1)) == encodeKeyIndex i0) = false := by
        simp [hne]
      simp only [kpart, List.map_cons]
      rw [List.lookup_cons, hbeq]
      have harg : i0 + (j' + 1) = (i0 + 1) + j' := by omega
      rw [harg]
      exact ih (i0 + 1) j' (Nat.lt_of_succ_lt_succ hj)

theorem v2_fold_dpart (t : ℚ) : ∀ (l : Ledger) (i0 : Nat)
    (kf : List (String × JValue)) (acc : List (String × JRecord)),
    (∀ j (hj : j < l.length), List.lookup (encodeKeyIndex (i0 + j)) kf
        = some (JValue.jstr (l.get ⟨j, hj⟩).1)) →
    (l.map Prod.fst).Nodup →
    (∀ key ∈ l.map Prod.fst, List.lookup key acc = none) →
    (∀ key ∈ l.map Prod.fst, key ≠ "") →
    List.foldl (v2Step (JValue.jnum t) kf) acc
        ((dpart t i0 l).map (fun p =>
          (p.1, JValue.jarr [JValue.jnum p.2.1, JValue.jnum p.2.2.1, JValue.jnum p.2.2.2])))
      = acc ++ l.map (fun e => (e.1, recordToJ e.2)) := by
  intro l
  induction l with
  | nil =>
    intro i0 kf acc _ _ _ _
    simp [dpart]
  | cons e rest ih =>
    intro i0 kf acc hk hnd hfresh hne
    obtain ⟨key, r⟩ := e
    have hk0 := hk 0 (by simp)
    simp only [Nat.add_zero, List.get] at hk0
    have hkey_ne : key ≠ "" := hne key (by simp)
    have hfresh0 : List.lookup key acc = none := hfresh key (by simp)
    simp only [dpart, List.map_cons, List.foldl_cons]
    have hstep : v2Step (JValue.jnum t) kf acc
        (encodeKeyIndex i0,
          JValue.jarr [JValue.jnum (t - r.lastAccess), JValue.jnum r.accessCount,
            JValue.jnum r.size])
        = acc ++ [(key, recordToJ r)] := by
      unfold v2Step
      rw [hk0]
      dsimp only
      rw [if_pos hkey_ne]
      have hval : ((jsSub (JValue.jnum t) (JValue.jnum (t - r.lastAccess)),
          JValue.jnum r.accessCount, JValue.jnum r.size) : JRecord) = recordToJ r := by
        show ((JValue.jnum (t - (t - r.lastAccess)), JValue.jnum r.accessCount,
          JValue.jnum r.size) : JRecord) = recordToJ r
        unfold recordToJ
        rw [sub_sub_cancel]
      rw [objSet_of_lookup_none _ hfresh0, hval]
    rw [hstep]
    simp only [List.map_cons, List.nodup_cons] at hnd
    have hrec := ih (i0 + 1) kf (acc ++ [(key, recordToJ r)])
      (fun j hj => by
        have harg : (i0 + 1) + j = i0 + (j + 1) := by omega
        rw [harg]
        have := hk (j + 1) (Nat.succ_lt_succ hj)
        simpa using this)
      hnd.2
      (fun key2 hkey2 => by
        have hne2 : key2 ≠ key := fun hc => hnd.1 (hc ▸ hkey2)
        rw [lookup_append_of_none _ (hfresh key2 (List.mem_cons_of_mem _ hkey2))]
        rw [List.lookup_cons]
        have : (key2 == key) = false := by simp [hne2]
        rw [this, List.lookup_nil])
      (fun key2 hkey2 => hne key2 (List.mem_cons_of_mem _ hkey2))
    rw [hrec, List.append_assoc]
    rfl

theorem decode_doc_of (S : Ledger) (t : ℚ)
    (hnd : (S.map Prod.fst).Nodup) (hne : ∀ key ∈ S.map Prod.fst, key ≠ "") :
    decompressAccessRecords (docToJson { t := t, k := kpart 0 S, d := dpart t 0 S })
      = S.map (fun e => (e.1, recordToJ e.2)) := by
  have hdisp : decompressAccessRecords (docToJson { t := t, k := kpart 0 S, d := dpart t 0 S })
      = decompressV2 (JValue.jnum t)
          ((kpart 0 S).map (fun p => (p.1, JValue.jstr p.2)))
          ((dpart t 0 S).map (fun p =>
            (p.1, JValue.jarr [JValue.jnum p.2.1, JValue.jnum p.2.2.1, JValue.jnum p.2.2.2]))) := by
    rfl
  rw [hdisp]
  unfold decompressV2
  have := v2_fold_dpart t S 0
    ((kpart 0 S).map (fun p => (p.1, JValue.jstr p.2))) []
    (fun j hj => kpart_lookup S 0 j hj)
    hnd
    (fun key _ => List.lookup_nil)
    hne
  rw [this]
  exact List.nil_append _

/-- Counterexample to C1 as stated: the singleton ledger whose key is the
empty string (1 entry ≤ maxEntries, no ties) does not survive the round
trip — the v2 decoder's JS-truthiness check `if (originalKey && ...)` drops
the empty-string key, so the decoded ledger is missing a key the original
has. -/
theorem c1_counterexample :
    List.lookup ("") (decompressAccessRecords (docToJson
        (compressAccessRecords [(("" : String), ⟨100, 1, 5⟩)] 500))) = none ∧
    List.lookup ("") ([(("" : String), (⟨100, 1, 5⟩ : AccessRecord))]) ≠ none :=
  ⟨by with_unfolding_all rfl, by decide⟩

/-- C1 (amended): for every ledger with unique, nonempty keys and at most
`maxEntries` entries, decoding the encoded snapshot reconstructs the ledger
exactly: every key maps back to its exact
`(lastAccess, accessCount, size)` triple and no other key appears.  (With
`|L| ≤ maxEntries` no entry is dropped by the weight cut, so weight ties
cannot change the result and no tie hypothesis is needed; the nonempty-key
hypothesis is forced by the counterexample `c1_counterexample`.) -/
theorem c1_roundtrip_amended (L : Ledger) (maxEntries : Nat)
    (hnd : (L.map Prod.fst).Nodup) (hlen : L.length ≤ maxEntries)
    (hne : ∀ key ∈ L.map Prod.fst, key ≠ "") :
    ∀ key, List.lookup key
        (decompressAccessRecords (docToJson (compressAccessRecords L maxEntries)))
      = (List.lookup key L).map recordToJ := by
  intro key
  set wle : (String × AccessRecord) → (String × AccessRecord) → Bool :=
    fun a b => decide (weight b.2 - weight a.2 ≤ 0) with hwle
  set S := jsSortBy wle L with hS
  have hperm : S.Perm L := jsSortBy_perm wle L
  have hndS : (S.map Prod.fst).Nodup := ((hperm.map Prod.fst).nodup_iff).mpr hnd
  have hneS : ∀ k2 ∈ S.map Prod.fst, k2 ≠ "" := fun k2 hk2 =>
    hne k2 (((hperm.map Prod.fst).mem_iff).mp hk2)
  have hcomp : compressAccessRecords L maxEntries =
      { t := jsMaxList (S.map (fun e => e.2.lastAccess)),
        k := kpart 0 S,
        d := dpart (jsMaxList (S.map (fun e => e.2.lastAccess))) 0 S } := by
    unfold compressAccessRecords
    dsimp only
    rw [← hwle, ← hS]
    rw [List.take_of_length_le (by rw [hperm.length_eq]; exact hlen)]
  rw [hcomp, decode_doc_of S _ hndS hneS, lookup_map_value, lookup_of_perm hndS hperm key]

/-- Witness for C1 (amended) at a concrete two-entry ledger. -/
theorem c1_roundtrip_amended_witness :
    List.lookup ("k1") (decompressAccessRecords (docToJson
        (compressAccessRecords
          [(("k1" : String), ⟨800, 3, 50⟩), (("k2" : String), ⟨900, 1, 20⟩)] 500)))
      = (List.lookup ("k1")
          [(("k1" : String), (⟨800, 3, 50⟩ : AccessRecord)),
           (("k2" : String), (⟨900, 1, 20⟩ : AccessRecord))]).map recordToJ :=
  c1_roundtrip_amended
    [(("k1" : String), ⟨800, 3, 50⟩), (("k2" : String), ⟨900, 1, 20⟩)] 500
    (by decide) (by decide) (by decide) ("k1")

/-! Claim C7 — decoder acceptance and malformed-entry handling (corrected). -/

theorem legacyStep_preserves {acc : List (String × JRecord)} {key : String}
    (p : String × JValue) (h : (List.lookup key acc).isSome = true) :
    (List.lookup key (legacyStep acc p)).isSome = true := by
  unfold legacyStep
  cases hp : p.2 with
  | jarr elems =>
    match elems with
    | [] => exact h
    | [a] => exact h
    | [a, b] => exact h
    | [a, b, c] =>
      by_cases hk : key = p.1
      · subst hk
        rw [objSet_lookup_self]
        rfl
      · rw [objSet_lookup_other hk]
        exact h
    | a :: b :: c :: d :: rest => exact h
  | jnum q => exact h
  | jnan => exact h
  | jstr s => exact h
  | jbool b => exact h
  | jnull => exact h
  | jobj f => exact h

theorem legacy_keeps : ∀ (fields : List (String × JValue))
    (acc : List (String × JRecord)) (key : String) (a b c : JValue),
    ((key, JValue.jarr [a, b, c]) ∈ fields ∨ (List.lookup key acc).isSome = true) →
    (List.lookup key (fields.foldl legacyStep acc)).isSome = true := by
  intro fields
  induction fields with
  | nil =>
    intro acc key a b c h
    rcases h with h | h
    · simp at h
    · exact h
  | cons p rest ih =>
    intro acc key a b c h
    rw [List.foldl_cons]
    rcases h with h | h
    · rcases List.mem_cons.mp h with h1 | h1
      · refine ih (legacyStep acc p) key a b c (Or.inr ?_)
        rw [← h1]
        unfold legacyStep
        dsimp only
        rw [objSet_lookup_self]
        rfl
      · exact ih _ key a b c (Or.inl h1)
    · exact ih _ key a b c (Or.inr (legacyStep_preserves p h))

theorem legacy_skips : ∀ (fields : List (String × JValue))
    (acc : List (String × JRecord)) (key : String),
    (List.lookup key (fields.foldl legacyStep acc)).isSome = true →
    (List.lookup key acc).isSome = true ∨
      ∃ a b c, (key, JValue.jarr [a, b, c]) ∈ fields := by
  intro fields
  induction fields with
  | nil =>
    intro acc key h
    exact Or.inl h
  | cons p rest ih =>
    intro acc key h
    rw [List.foldl_cons] at h
    rcases ih (legacyStep acc p) key h with h1 | ⟨a, b, c, h1⟩
    · unfold legacyStep at h1
      cases hp : p.2 with
      | jarr elems =>
        rw [hp] at h1
        match elems, h1 with
        | [], h1 => exact Or.inl h1
        | [a], h1 => exact Or.inl h1
        | [a, b], h1 => exact Or.inl h1
        | [a, b, c], h1 =>
          by_cases hk : key = p.1
          · subst hk
            exact Or.inr ⟨a, b, c, List.mem_cons.mpr (Or.inl (by rw [← hp]))⟩
          · rw [objSet_lookup_other hk] at h1
            exact Or.inl h1
        | a :: b :: c :: d :: rest2, h1 => exact Or.inl h1
      | jnum q => rw [hp] at h1; exact Or.inl h1
      | jnan => rw [hp] at h1; exact Or.inl h1
      | jstr s => rw [hp] at h1; exact Or.inl h1
      | jbool b => rw [hp] at h1; exact Or.inl h1
      | jnull => rw [hp] at h1; exact Or.inl h1
      | jobj f => rw [hp] at h1; exact Or.inl h1
    · exact Or.inr ⟨a, b, c, List.mem_cons_of_mem _ h1⟩

/-- Counterexample to C7 as stated: a legacy document whose entry has the
non-numeric field `"x"` is NOT skipped — the decoder copies the raw fields
into the result, so the key is present with a string where a number
belongs. -/
theorem c7_counterexample :
    decompressAccessRecords (JValue.jobj
        [(("k1" : String), JValue.jarr [JValue.jstr "x", JValue.jnum 2, JValue.jnum 3])])
      = [(("k1" : String), (JValue.jstr "x", JValue.jnum 2, JValue.jnum 3))] := by
  rfl

/-- C7 (amended): decode accepts version-2 documents and legacy unversioned
documents; a document with a truthy numeric version other than 2 decodes to
the empty ledger; a missing `v` selects the legacy decoder; in the legacy
decoder every wrong-arity entry (value not an array of length 3) is skipped
and every length-3 array entry is kept — entries with non-numeric fields are
NOT skipped but included with their raw field values (see
`c7_counterexample`; version-2 acceptance is exercised separately by the
round-trip development over `decompressAccessRecords`). -/
theorem c7_decode_amended (fields : List (String × JValue)) :
    (∀ q : ℚ, List.lookup ("v") fields = some (JValue.jnum q) → q ≠ 0 → q ≠ 2 →
       decompressAccessRecords (JValue.jobj fields) = [])
  ∧ (List.lookup ("v") fields = none →
       decompressAccessRecords (JValue.jobj fields) = decompressLegacyFormat fields)
  ∧ (∀ key a b c, (key, JValue.jarr [a, b, c]) ∈ fields →
       (List.lookup key (decompressLegacyFormat fields)).isSome = true)
  ∧ (∀ key, (List.lookup key (decompressLegacyFormat fields)).isSome = true →
       ∃ a b c, (key, JValue.jarr [a, b, c]) ∈ fields) := by
  refine ⟨?_, ?_, ?_, ?_⟩
  · intro q hv hq0 hq2
    unfold decompressAccessRecords
    dsimp only
    rw [hv]
    have htr : jTruthy (JValue.jnum q) = true := by
      simp [jTruthy, hq0]
    have hq2f : (q = 2) = False := by simp [hq2]
    simp only [htr, Bool.true_eq_false, if_false, hq2f]
  · intro hv
    unfold decompressAccessRecords
    dsimp only
    rw [hv]
  · intro key a b c hmem
    exact legacy_keeps fields [] key a b c (Or.inl hmem)
  · intro key h
    rcases legacy_skips fields [] key h with h1 | h1
    · rw [List.lookup_nil] at h1
      cases h1
    · exact h1

/-- Witness for C7 (amended): a truthy version 3 decodes to the empty
ledger. -/
theorem c7_decode_amended_witness :
    (List.lookup ("v") [(("v" : String), JValue.jnum 3)] = some (JValue.jnum 3)) ∧
    decompressAccessRecords (JValue.jobj [(("v" : String), JValue.jnum 3)]) = [] :=
  ⟨rfl, (c7_decode_amended [(("v" : String), JValue.jnum 3)]).1 3 rfl
    (by norm_num) (by norm_num)⟩

/-- Witness for C10: a 10-byte quota holding a 10-byte entry rejects a
3-byte write; the adapter clears the store and the retry succeeds, leaving
only the new entry. -/
theorem c10_quota_clear_retry_witness :
    (rawSetItem 10 [(("old" : String), ("1234567" : String))] ("k") ("vv")
        = Except.error ()) ∧
    adapterSetItem 10 [(("old" : String), ("1234567" : String))] ("k") ("vv")
        = Except.ok [(("k" : String), ("vv" : String))] := by
  have h : rawSetItem 10 [(("old" : String), ("1234567" : String))] ("k") ("vv")
      = Except.error () := by
    with_unfolding_all rfl
  exact ⟨h, (c10_quota_clear_retry 10 _ _ _ h).1 (by with_unfolding_all decide)⟩
